import Mathlib

set_option maxRecDepth 20000
set_option linter.unusedVariables false

/-!
Shallow embedding of the `akveg-lichens` string-processing pipeline
(`utils.py` and the table-of-contents derivation in `01_create_toc.py`).
Strings are modelled as `List Char`; Python's `str` operations used by the
code (`re.sub` with the two concrete patterns, `str.lower`, `str.split`,
`str.strip`, `"_".join`, slicing `[:5]`, `pathlib.Path(...).name`, and the
polars column expressions) are translated into executable functions below.
Whitespace and lowercasing are modelled over the ASCII range, which covers
every character class the scripts manipulate.
-/

/-- Whitespace characters recognised by Python's `str.split()`, `str.strip()`
and the regex class `\s` (ASCII range). -/
def isPySpace (c : Char) : Bool :=
  c = ' ' || c = '\t' || c = '\n' || c = '\r' || c = '\x0b' || c = '\x0c'

/-- The single characters removed by `re.sub(r"&|\.|-|_|(spp)|(ssp)", "", ...)`
in `generate_short_code` (utils.py line 46). -/
def isJunkChar (c : Char) : Bool :=
  c = '&' || c = '.' || c = '-' || c = '_'

/-- Left-to-right, non-overlapping removal performed by
`re.sub(r"&|\.|-|_|(spp)|(ssp)", "", taxon_name)` (utils.py line 46):
at each position the scanner removes one of the characters `& . - _` or one
of the literal substrings `spp`/`ssp`, otherwise it copies the character. -/
def removeJunk : List Char → List Char
  | [] => []
  | 's':: 'p':: 'p'::r => removeJunk r
  | 's':: 's':: 'p'::r => removeJunk r
  | c :: r => if isJunkChar c then removeJunk r else c :: removeJunk r

/-- Python `str.lower()` over the ASCII range, applied characterwise. -/
def lowerList (l : List Char) : List Char :=
  l.map Char.toLower

/-- Accumulator pass implementing Python `str.split()`: words are maximal
runs of non-whitespace characters; empty words never appear. -/
def splitWSAux (acc : List Char) : List Char → List (List Char)
  | [] => if acc = [] then [] else [acc.reverse]
  | c :: r =>
    if isPySpace c then
      if acc = [] then splitWSAux [] r else acc.reverse :: splitWSAux [] r
    else splitWSAux (c :: acc) r

/-- Python `processed_name.split()` (utils.py line 49). -/
def splitWS (l : List Char) : List (List Char) :=
  splitWSAux [] l

/-- Python `"_".join(parts)` (utils.py lines 57 and 61). -/
def joinU : List (List Char) → List Char
  | [] => []
  | [w] => w
  | w :: ws => w ++ '_' :: joinU ws

/-- Extend the first field of a field list with one leading character. -/
def consHead (c : Char) : List (List Char) → List (List Char)
  | [] => [[c]]
  | w :: ws => (c :: w) :: ws

/-- Python `s.split("_")` (separator split, keeping empty fields); used to
speak about the underscore-separated word-parts of a short code. -/
def splitU : List Char → List (List Char)
  | [] => [[]]
  | '_' :: r => [] :: splitU r
  | c :: r => consHead c (splitU r)

/-- The cleaned word-part list of `generate_short_code`: junk removal,
lowercasing, whitespace split (utils.py lines 46-49). -/
def cleanParts (l : List Char) : List (List Char) :=
  splitWS (lowerList (removeJunk l))

/-- `generate_short_code` (utils.py lines 35-61) on character lists. -/
def gscL (l : List Char) : List Char :=
  match cleanParts l with
  | [] => "Error".data
  | [p] => p
  | [p, q] => joinU [p.take 5, q.take 5]
  | p0 :: p1 :: p2 :: rest =>
    if p0 = p2 then joinU ((p0 :: p1 :: rest).map (List.take 5))
    else joinU ((p0 :: p1 :: p2 :: rest).map (List.take 5))

/-- `generate_short_code` from utils.py. -/
def generate_short_code (s : String) : String :=
  ⟨gscL s.data⟩

/-- Phase of the `re.sub(r"(ssp|spp)(?!\.)(\s*)(.*)", r"\1.\2\3", ...)` scan
in `enforce_abbr_period`: scanning for a match, copying the `(\s*)` group,
or copying the `(.*)` group (which stops at a newline). -/
inductive EnfPhase where
  | scan : EnfPhase
  | ws : EnfPhase
  | line : EnfPhase

/-- One left-to-right pass of `re.sub` with `ABBR_PATTERN`/`ABBR_REPLACEMENT`
(utils.py lines 31-32, 76): on finding `ssp` or `spp` not followed by `.`,
a period is inserted after it; the match then consumes the following
whitespace (`\s*`, greedy, newlines included) and the rest of the line
(`.*`), after which scanning resumes. An occurrence already followed by `.`
is skipped and the scan advances one character. -/
def enfRun : EnfPhase → List Char → List Char
  | _, [] => []
  | .scan, 's':: 's':: 'p'::rest =>
    if rest.head? = some '.' then 's' :: enfRun .scan ('s':: 'p'::rest)
    else 's':: 's':: 'p':: '.':: enfRun .ws rest
  | .scan, 's':: 'p':: 'p'::rest =>
    if rest.head? = some '.' then 's' :: enfRun .scan ('p':: 'p'::rest)
    else 's':: 'p':: 'p':: '.':: enfRun .ws rest
  | .scan, c :: rest => c :: enfRun .scan rest
  | .ws, c :: rest =>
    if isPySpace c then c :: enfRun .ws rest else c :: enfRun .line rest
  | .line, c :: rest =>
    if c = '\n' then '\n' :: enfRun .scan rest else c :: enfRun .line rest

/-- `enforce_abbr_period` (utils.py lines 64-76). -/
def enforce_abbr_period (s : String) : String :=
  ⟨enfRun .scan s.data⟩

/-- Strip characters satisfying `p` from both ends, as Python `str.strip`. -/
def stripBy (p : Char → Bool) (l : List Char) : List Char :=
  ((l.dropWhile p).reverse.dropWhile p).reverse

/-- Python `.strip("_")` (utils.py line 105). -/
def stripUnd (l : List Char) : List Char :=
  stripBy (fun c => c = '_') l

/-- Python `.strip()` (utils.py line 105). -/
def stripWs (l : List Char) : List Char :=
  stripBy isPySpace l

/-- Path separators recognised when taking `pathlib.Path(...).name`. -/
def isSep (c : Char) : Bool :=
  c = '/' || c = '\\'

/-- Split on path separators, keeping empty components. -/
def splitSep : List Char → List (List Char)
  | [] => [[]]
  | c :: r =>
    if isSep c then [] :: splitSep r
    else
      match splitSep r with
      | [] => [[c]]
      | g :: gs => (c :: g) :: gs

/-- `pathlib.Path(s).name` (utils.py line 105): the last path component,
where empty components and `.` components are discarded during parsing. -/
def pathName (l : List Char) : List Char :=
  ((splitSep l).filter (fun w => w ≠ [] && w ≠ ['.'])).getLastD []

/-- `generate_taxon_name` (utils.py lines 80-107) on character lists:
leaf name, strip underscores, strip whitespace, enforce abbreviation
periods. -/
def gtnL (l : List Char) : List Char :=
  enfRun .scan (stripWs (stripUnd (pathName l)))

/-- `generate_taxon_name` from utils.py, on string inputs. -/
def generate_taxon_name (s : String) : String :=
  ⟨gtnL s.data⟩

/-- The folder-name simplification mapping of 01_create_toc.py lines 73-77,
applied by `pl.col('title_name').str.replace_many(mapping)`. -/
def folderMapping : List (List Char × List Char) :=
  [ ("Mushroom-Forming Lichens & Basidiolichens".data, "Mushroom-Forming".data)
  , ("Lobed Crusts, Select Crusts, Minutely Fruticose Species".data,
     "Crusts & Fruticose".data)
  , ("Pseudocyphellaria & Parmostictina".data, "Pseudo & Parmo".data)
  , ("Non-Shrub or Hair-Like Fruticose Parmelioids".data, "Non-Shrub Hair".data)
  , ("P. aphthosa-leucophlebia Complex & Similar".data, "Pelaph Complex".data) ]

/-- First mapping entry whose pattern is a prefix of `l`. -/
def findRepl (m : List (List Char × List Char)) (l : List Char) :
    Option (List Char × List Char) :=
  match m with
  | [] => none
  | (p, r) :: m' => if p.isPrefixOf l then some (p, r) else findRepl m' l

/-- Fuel-indexed multi-pattern substring replacement modelling polars
`str.replace_many`: scan left to right, at each position replace the first
listed pattern that matches, otherwise copy one character. Every pattern in
`folderMapping` is nonempty, so fuel equal to the input length always
suffices and the fuel bound is never hit. -/
def replaceManyFuel (m : List (List Char × List Char)) :
    Nat → List Char → List Char
  | 0, l => l
  | _ + 1, [] => []
  | n + 1, c :: rest =>
    match findRepl m (c :: rest) with
    | some (p, r) => r ++ replaceManyFuel m n ((c :: rest).drop p.length)
    | none => c :: replaceManyFuel m n rest

/-- polars `str.replace_many(mapping)` (01_create_toc.py lines 79-81). -/
def replaceMany (m : List (List Char × List Char)) (l : List Char) : List Char :=
  replaceManyFuel m l.length l

/-- polars `.str.replace_all(" Lichens|\\.", "")` (01_create_toc.py line 82):
a single left-to-right pass removing the literal `" Lichens"` or a period. -/
def stripLichensDot : List Char → List Char
  | [] => []
  | ' ':: 'L':: 'i':: 'c':: 'h':: 'e':: 'n':: 's'::r => stripLichensDot r
  | '.' :: r => stripLichensDot r
  | c :: r => c :: stripLichensDot r

/-- polars `.str.replace_all(r"\s|&|-", "_")` (01_create_toc.py line 84):
every single-character match is rewritten to an underscore. -/
def wsAmpDashToU (l : List Char) : List Char :=
  l.map (fun c => if isPySpace c || c = '&' || c = '-' then '_' else c)

/-- polars `.str.replace_all(r"_+", "_")` (01_create_toc.py line 85):
every maximal run of underscores collapses to a single underscore. -/
def collapseU : List Char → List Char
  | [] => []
  | '_':: '_'::rest => collapseU ('_'::rest)
  | c :: rest => c :: collapseU rest

/-- The `taxon_folder` column derivation of 01_create_toc.py lines 79-86,
starting from a `title_name` value. -/
def taxonFolderL (t : List Char) : List Char :=
  collapseU (wsAmpDashToU (lowerList (stripLichensDot (replaceMany folderMapping t))))

/-- The `taxon_folder` derivation on string inputs. -/
def taxon_folder (s : String) : String :=
  ⟨taxonFolderL s.data⟩

/-- Characters allowed in a folder slug per the spec: `[a-z0-9_]`. -/
def isSlugChar (c : Char) : Bool :=
  ('a' ≤ c && c ≤ 'z') || ('0' ≤ c && c ≤ '9') || c = '_'

/-- ASCII letters, digits, Python whitespace, and the characters `& . - _`:
the character classes the pipeline removes, rewrites, splits on or
lowercases. -/
def asciiTextOk (c : Char) : Bool :=
  c.isAlpha || c.isDigit || isPySpace c || isJunkChar c

/-- True when the character list has no two consecutive underscores. -/
def noDoubleU : List Char → Bool
  | '_':: '_':: _ => false
  | _ :: rest => noDoubleU rest
  | [] => true

/-- The deduplication `hierarchy.unique(subset=['title_name', "taxon_folder"])`
(01_create_toc.py lines 93-95), modelled as keep-one deduplication (a row
is dropped when an identical row occurs later; the polars row order after
`unique` is unspecified). -/
def distinctPairs : List (String × String) → List (String × String)
  | [] => []
  | r :: rest =>
    if r ∈ rest then distinctPairs rest else r :: distinctPairs rest

/-- The order column `pl.int_range(10, pl.len() + 10)` joined to the rows of
`hierarchy_folders` (01_create_toc.py lines 100-102): the i-th row receives
the display-order integer `10 + i`. -/
def assignOrder (rows : List (String × String)) : List ((String × String) × Nat) :=
  rows.enum.map (fun p => (p.2, 10 + p.1))

/-- True when the list starts with `ssp` or `spp` not followed by a period,
i.e. the abbreviation pattern of utils.py line 31 matches here. -/
def unpunctAbbrHead (l : List Char) : Bool :=
  (l.take 3 == ['s', 's', 'p'] || l.take 3 == ['s', 'p', 'p']) &&
    !((l.drop 3).head? == some '.')

/-- Index of the first occurrence of `ssp`/`spp` not followed by a period;
`none` exactly when every such abbreviation occurrence already carries its
period. -/
def firstAbbrIdx : List Char → Option Nat
  | [] => none
  | c :: rest =>
    if unpunctAbbrHead (c :: rest) then some 0
    else (firstAbbrIdx rest).map (· + 1)

/-- The whitespace-run-then-rest-of-line segment following a match: the text
captured by the groups `(\s*)(.*)` of the abbreviation pattern. -/
def wsLinePart (r : List Char) : List Char :=
  r.takeWhile isPySpace ++ (r.dropWhile isPySpace).takeWhile (fun c => c ≠ '\n')

/-- What remains after the whitespace run and the rest of the line. -/
def afterWsLine (r : List Char) : List Char :=
  (r.dropWhile isPySpace).dropWhile (fun c => c ≠ '\n')

/-- Spec-level formulation of the abbreviation-period pass: locate the first
`ssp`/`spp` occurrence not already followed by a period, splice a period in
right after it, copy the following whitespace and the rest of that line
unchanged, and continue on the remainder. -/
def specEnforce (l : List Char) : List Char :=
  match h : firstAbbrIdx l with
  | none => l
  | some i =>
    l.take (i + 3) ++ '.' ::
      (wsLinePart (l.drop (i + 3)) ++ specEnforce (afterWsLine (l.drop (i + 3))))
termination_by l.length
decreasing_by
  have h0 : l ≠ [] := by intro e; subst e; simp [firstAbbrIdx] at h
  have h1 : (afterWsLine (l.drop (i + 3))).length ≤ l.length - (i + 3) := by
    have ha := (((l.drop (i + 3)).dropWhile isPySpace).dropWhile_sublist
      (fun c => c ≠ '\n')).length_le
    have hb := ((l.drop (i + 3)).dropWhile_sublist isPySpace).length_le
    simp only [afterWsLine, List.length_drop] at *
    omega
  have h2 : 0 < l.length := List.length_pos.mpr h0
  omega

/-- Spec-level normalizer: leaf name, strip leading/trailing underscores,
strip leading/trailing whitespace, then the splice-based abbreviation-period
pass. -/
def specNormalize (s : String) : String :=
  ⟨specEnforce (stripWs (stripUnd (pathName s.data)))⟩

/-- True when the list contains no path separator. -/
def noSepL (l : List Char) : Bool :=
  l.all (fun c => !isSep c)

/-- True when the list neither starts nor ends with an underscore or a
whitespace character. -/
def edgeOkL (l : List Char) : Bool :=
  (match l.head? with
   | none => true
   | some c => !(c = '_' || isPySpace c)) &&
  (match l.getLast? with
   | none => true
   | some c => !(c = '_' || isPySpace c))

/-! ## Supporting lemmas -/

theorem char_eq_of_toNat_eq {c d : Char} (h : c.toNat = d.toNat) : c = d :=
  Char.ext (UInt32.toNat.inj h)

theorem char_ne_of_toNat_ne {c d : Char} (h : c.toNat ≠ d.toNat) : c ≠ d :=
  fun e => h (congrArg Char.toNat e)

theorem char_le_iff_toNat {c d : Char} : c ≤ d ↔ c.toNat ≤ d.toNat := by
  rw [Char.le_def]
  exact ⟨fun h => UInt32.le_def.mp h, fun h => UInt32.le_def.mpr h⟩

theorem toLower_toNat_of_upper {c : Char} (h1 : 65 ≤ c.toNat) (h2 : c.toNat ≤ 90) :
    (c.toLower).toNat = c.toNat + 32 := by
  have hval : (c.toNat + 32).isValidChar := by
    left
    show c.toNat + 32 < 55296
    omega
  unfold Char.toLower
  rw [if_pos ⟨h1, h2⟩]
  unfold Char.ofNat
  rw [dif_pos hval]
  unfold Char.ofNatAux Char.toNat
  simp [UInt32.toNat]

theorem toLower_of_not_upper {c : Char} (h : ¬(65 ≤ c.toNat ∧ c.toNat ≤ 90)) :
    c.toLower = c := by
  unfold Char.toLower
  rw [if_neg h]

theorem pySpace_toLower {c : Char} (h : isPySpace c = true) : c.toLower = c := by
  simp only [isPySpace, Bool.or_eq_true, decide_eq_true_eq] at h
  rcases h with ⟨⟨⟨⟨h|h⟩|h⟩|h⟩|h⟩|h <;> subst h <;> decide

theorem toLower_eq_underscore {c : Char} (h : c.toLower = '_') : c = '_' := by
  by_cases hu : 65 ≤ c.toNat ∧ c.toNat ≤ 90
  · exfalso
    have ht := toLower_toNat_of_upper hu.1 hu.2
    rw [h] at ht
    have h95 : ('_' : Char).toNat = 95 := rfl
    omega
  · rwa [toLower_of_not_upper hu] at h

theorem isUpper_range {c : Char} (h : c.isUpper = true) :
    65 ≤ c.toNat ∧ c.toNat ≤ 90 := by
  simp only [Char.isUpper, Bool.and_eq_true, decide_eq_true_eq] at h
  exact ⟨UInt32.le_toNat_of_le (by decide) h.1,
    UInt32.toNat_le_of_le (by decide) h.2⟩

theorem isLower_range {c : Char} (h : c.isLower = true) :
    97 ≤ c.toNat ∧ c.toNat ≤ 122 := by
  simp only [Char.isLower, Bool.and_eq_true, decide_eq_true_eq] at h
  exact ⟨UInt32.le_toNat_of_le (by decide) h.1,
    UInt32.toNat_le_of_le (by decide) h.2⟩

theorem isDigit_range {c : Char} (h : c.isDigit = true) :
    48 ≤ c.toNat ∧ c.toNat ≤ 57 := by
  simp only [Char.isDigit, Bool.and_eq_true, decide_eq_true_eq] at h
  exact ⟨UInt32.le_toNat_of_le (by decide) h.1,
    UInt32.toNat_le_of_le (by decide) h.2⟩

theorem alnum_toLower_range {c : Char} (h : c.isAlpha = true ∨ c.isDigit = true) :
    (97 ≤ c.toLower.toNat ∧ c.toLower.toNat ≤ 122) ∨
      (48 ≤ c.toLower.toNat ∧ c.toLower.toNat ≤ 57) := by
  rcases h with ha | hd
  · simp only [Char.isAlpha, Bool.or_eq_true] at ha
    rcases ha with hu | hl
    · obtain ⟨h1, h2⟩ := isUpper_range hu
      have ht := toLower_toNat_of_upper h1 h2
      left
      omega
    · obtain ⟨h1, h2⟩ := isLower_range hl
      rw [toLower_of_not_upper (by omega)]
      left
      exact ⟨h1, h2⟩
  · obtain ⟨h1, h2⟩ := isDigit_range hd
    rw [toLower_of_not_upper (by omega)]
    right
    exact ⟨h1, h2⟩

theorem slug_of_toNat_range {d : Char}
    (h : (97 ≤ d.toNat ∧ d.toNat ≤ 122) ∨ (48 ≤ d.toNat ∧ d.toNat ≤ 57)) :
    isSlugChar d = true ∧ isPySpace d = false ∧ d ≠ '_' := by
  have ea : ('a' : Char).toNat = 97 := rfl
  have ez : ('z' : Char).toNat = 122 := rfl
  have e0 : ('0' : Char).toNat = 48 := rfl
  have e9 : ('9' : Char).toNat = 57 := rfl
  refine ⟨?_, ?_, char_ne_of_toNat_ne (by have : ('_' : Char).toNat = 95 := rfl; omega)⟩
  · simp only [isSlugChar, Bool.or_eq_true, Bool.and_eq_true, decide_eq_true_eq,
      char_le_iff_toNat]
    rw [ea, ez, e0, e9]
    omega
  · simp only [isPySpace, Bool.or_eq_false_iff, decide_eq_false_iff_not]
    have s1 : (' ' : Char).toNat = 32 := rfl
    have s2 : ('\t' : Char).toNat = 9 := rfl
    have s3 : ('\n' : Char).toNat = 10 := rfl
    have s4 : ('\r' : Char).toNat = 13 := rfl
    have s5 : ('\x0b' : Char).toNat = 11 := rfl
    have s6 : ('\x0c' : Char).toNat = 12 := rfl
    exact ⟨⟨⟨⟨⟨char_ne_of_toNat_ne (by omega), char_ne_of_toNat_ne (by omega)⟩,
      char_ne_of_toNat_ne (by omega)⟩, char_ne_of_toNat_ne (by omega)⟩,
      char_ne_of_toNat_ne (by omega)⟩, char_ne_of_toNat_ne (by omega)⟩

theorem removeJunk_cons_pat {c : Char} {r : List Char}
    (h1 : ∀ r1, c = 's' → r = 'p' :: 'p' :: r1 → False)
    (h2 : ∀ r1, c = 's' → r = 's' :: 'p' :: r1 → False) :
    removeJunk (c :: r) =
      if isJunkChar c then removeJunk r else c :: removeJunk r := by
  rw [removeJunk]
  · exact h1
  · exact h2

theorem removeJunk_cons_junk {c : Char} (hj : isJunkChar c = true)
    (r : List Char) : removeJunk (c :: r) = removeJunk r := by
  have hc : c ≠ 's' := by
    intro e
    subst e
    simp [isJunkChar] at hj
  rw [removeJunk_cons_pat (fun _ e _ => hc e) (fun _ e _ => hc e), if_pos hj]

theorem removeJunk_cons_copy {c : Char} (hj : isJunkChar c = false)
    (hs : c ≠ 's') (r : List Char) :
    removeJunk (c :: r) = c :: removeJunk r := by
  rw [removeJunk_cons_pat (fun _ e _ => hs e) (fun _ e _ => hs e),
    if_neg (by simp [hj])]

theorem removeJunk_cons_s {r : List Char}
    (h1 : ∀ r1, r ≠ 'p' :: 'p' :: r1) (h2 : ∀ r1, r ≠ 's' :: 'p' :: r1) :
    removeJunk ('s' :: r) = 's' :: removeJunk r := by
  rw [removeJunk_cons_pat (fun r1 _ e => h1 r1 e) (fun r1 _ e => h2 r1 e),
    if_neg (by simp [isJunkChar])]

theorem removeJunk_mem {c : Char} :
    ∀ {l : List Char}, c ∈ removeJunk l → c ∈ l ∧ isJunkChar c = false := by
  intro l
  induction l using removeJunk.induct with
  | case1 => intro h; simp [removeJunk] at h
  | case2 r ih =>
    intro h
    rw [removeJunk] at h
    have hr := ih h
    exact ⟨by simp [hr.1], hr.2⟩
  | case3 r ih =>
    intro h
    rw [removeJunk] at h
    have hr := ih h
    exact ⟨by simp [hr.1], hr.2⟩
  | case4 c' r h1 h2 hj ih =>
    intro h
    rw [removeJunk_cons_pat h1 h2, if_pos hj] at h
    have hr := ih h
    exact ⟨by simp [hr.1], hr.2⟩
  | case5 c' r h1 h2 hj ih =>
    intro h
    rw [removeJunk_cons_pat h1 h2, if_neg hj] at h
    rcases List.mem_cons.mp h with h | h
    · subst h
      exact ⟨List.mem_cons_self _ _, by simpa using hj⟩
    · have hr := ih h
      exact ⟨by simp [hr.1], hr.2⟩

theorem splitWSAux_chars (P : Char → Prop) :
    ∀ (acc l : List Char), (∀ c ∈ acc, P c) →
      (∀ c ∈ l, isPySpace c = false → P c) →
      ∀ w ∈ splitWSAux acc l, ∀ c ∈ w, P c := by
  intro acc l
  induction acc, l using splitWSAux.induct with
  | case1 =>
    intro _ _ w hw
    simp [splitWSAux] at hw
  | case2 acc hacc =>
    intro ha _ w hw
    rw [splitWSAux, if_neg hacc] at hw
    rcases List.mem_singleton.mp hw with rfl
    intro c hc
    exact ha c (List.mem_reverse.mp hc)
  | case3 c r hsp ih =>
    intro _ hl w hw
    rw [splitWSAux, if_pos hsp, if_pos rfl] at hw
    exact ih (by intro c hc; cases hc)
      (fun c hc h => hl c (List.mem_cons_of_mem _ hc) h) w hw
  | case4 acc c r hsp hacc ih =>
    intro ha hl w hw
    rw [splitWSAux, if_pos hsp, if_neg hacc] at hw
    rcases List.mem_cons.mp hw with rfl | hw
    · intro c' hc'
      exact ha c' (List.mem_reverse.mp hc')
    · exact ih (by intro c' hc'; cases hc')
        (fun c' hc' h => hl c' (List.mem_cons_of_mem _ hc') h) w hw
  | case5 acc c r hsp ih =>
    intro ha hl w hw
    rw [splitWSAux, if_neg hsp] at hw
    refine ih ?_ (fun c' hc' h => hl c' (List.mem_cons_of_mem _ hc') h) w hw
    intro c' hc'
    rcases List.mem_cons.mp hc' with rfl | hc'
    · exact hl c' (List.mem_cons_self _ _) (by simpa using hsp)
    · exact ha c' hc'

theorem splitWSAux_ne_nil :
    ∀ (acc l : List Char), ∀ w ∈ splitWSAux acc l, w ≠ [] := by
  intro acc l
  induction acc, l using splitWSAux.induct with
  | case1 => intro w hw; simp [splitWSAux] at hw
  | case2 acc hacc =>
    intro w hw
    rw [splitWSAux, if_neg hacc] at hw
    rcases List.mem_singleton.mp hw with rfl
    simpa using hacc
  | case3 c r hsp ih =>
    intro w hw
    rw [splitWSAux, if_pos hsp, if_pos rfl] at hw
    exact ih w hw
  | case4 acc c r hsp hacc ih =>
    intro w hw
    rw [splitWSAux, if_pos hsp, if_neg hacc] at hw
    rcases List.mem_cons.mp hw with rfl | hw
    · simpa using hacc
    · exact ih w hw
  | case5 acc c r hsp ih =>
    intro w hw
    rw [splitWSAux, if_neg hsp] at hw
    exact ih w hw

theorem cleanParts_chars {l : List Char} :
    ∀ w ∈ cleanParts l, ∀ c ∈ w,
      ∃ c0, c0 ∈ l ∧ isJunkChar c0 = false ∧ isPySpace c = false ∧
        c = c0.toLower := by
  intro w hw
  refine splitWSAux_chars
    (fun c => ∃ c0, c0 ∈ l ∧ isJunkChar c0 = false ∧ isPySpace c = false ∧
      c = c0.toLower) [] (lowerList (removeJunk l)) (by intro c hc; cases hc)
    ?_ w hw
  intro c hc hns
  rcases List.mem_map.mp hc with ⟨c0, hc0, rfl⟩
  have hm := removeJunk_mem hc0
  exact ⟨c0, hm.1, hm.2, hns, rfl⟩

theorem cleanParts_no_underscore {l : List Char} :
    ∀ w ∈ cleanParts l, '_' ∉ w := by
  intro w hw hu
  rcases cleanParts_chars w hw '_' hu with ⟨c0, _, hj, _, he⟩
  have := toLower_eq_underscore he.symm
  subst this
  simp [isJunkChar] at hj

theorem cleanParts_slug {l : List Char} (hok : ∀ c ∈ l, asciiTextOk c = true) :
    ∀ w ∈ cleanParts l, ∀ c ∈ w, isSlugChar c = true := by
  intro w hw c hc
  rcases cleanParts_chars w hw c hc with ⟨c0, hmem, hj, hns, rfl⟩
  have hok0 := hok c0 hmem
  simp only [asciiTextOk, Bool.or_eq_true] at hok0
  rcases hok0 with ((ha | hd) | hs) | hjk
  · exact (slug_of_toNat_range (alnum_toLower_range (Or.inl ha))).1
  · exact (slug_of_toNat_range (alnum_toLower_range (Or.inr hd))).1
  · rw [pySpace_toLower hs] at hns
    rw [hns] at hs
    exact Bool.noConfusion hs
  · rw [hj] at hjk
    exact Bool.noConfusion hjk

theorem joinU_cons {w w2 : List Char} {ws : List (List Char)} :
    joinU (w :: w2 :: ws) = w ++ '_' :: joinU (w2 :: ws) := by
  rw [joinU]
  exact fun e => List.noConfusion e

theorem joinU_mem {c : Char} :
    ∀ {ps : List (List Char)}, c ∈ joinU ps → (∃ w ∈ ps, c ∈ w) ∨ c = '_' := by
  intro ps
  induction ps with
  | nil => intro h; cases h
  | cons w ws ih =>
    cases ws with
    | nil => intro h; exact Or.inl ⟨w, List.mem_singleton_self _, h⟩
    | cons w2 ws2 =>
      intro h
      rw [joinU_cons] at h
      rcases List.mem_append.mp h with h | h
      · exact Or.inl ⟨w, List.mem_cons_self _ _, h⟩
      · rcases List.mem_cons.mp h with rfl | h
        · exact Or.inr rfl
        · rcases ih h with ⟨w', hw', hc⟩ | h
          · exact Or.inl ⟨w', List.mem_cons_of_mem _ hw', hc⟩
          · exact Or.inr h

theorem splitU_cons_ne {c : Char} (hc : c ≠ '_') (r : List Char) :
    splitU (c :: r) = consHead c (splitU r) := by
  rw [splitU]
  exact fun e => hc e

theorem splitU_no_underscore :
    ∀ {w : List Char}, '_' ∉ w → splitU w = [w] := by
  intro w
  induction w with
  | nil => intro _; rfl
  | cons c r ih =>
    intro h
    have hc : c ≠ '_' := fun e => h (e ▸ List.mem_cons_self _ _)
    have hr : '_' ∉ r := fun e => h (List.mem_cons_of_mem _ e)
    rw [splitU_cons_ne hc, ih hr]
    rfl

theorem splitU_append {t : List Char} :
    ∀ {w : List Char}, '_' ∉ w → splitU (w ++ '_' :: t) = w :: splitU t := by
  intro w
  induction w with
  | nil =>
    intro _
    rw [List.nil_append, splitU]
  | cons c r ih =>
    intro h
    have hc : c ≠ '_' := fun e => h (e ▸ List.mem_cons_self _ _)
    have hr : '_' ∉ r := fun e => h (List.mem_cons_of_mem _ e)
    rw [List.cons_append, splitU_cons_ne hc, ih hr]
    rfl

theorem enf_scan_pat {c : Char} {rest : List Char}
    (h1 : ∀ r1, c = 's' → rest = 's' :: 'p' :: r1 → False)
    (h2 : ∀ r1, c = 's' → rest = 'p' :: 'p' :: r1 → False) :
    enfRun .scan (c :: rest) = c :: enfRun .scan rest := by
  rw [enfRun]
  · exact h1
  · exact h2

theorem enf_scan_cons_ne {c : Char} (hc : c ≠ 's') (rest : List Char) :
    enfRun .scan (c :: rest) = c :: enfRun .scan rest :=
  enf_scan_pat (fun _ e _ => hc e) (fun _ e _ => hc e)

theorem enf_scan_cons_s {rest : List Char}
    (h1 : ∀ r1, rest ≠ 's' :: 'p' :: r1) (h2 : ∀ r1, rest ≠ 'p' :: 'p' :: r1) :
    enfRun .scan ('s' :: rest) = 's' :: enfRun .scan rest :=
  enf_scan_pat (fun r1 _ e => h1 r1 e) (fun r1 _ e => h2 r1 e)

theorem enf_ws_cons (c : Char) (rest : List Char) :
    enfRun .ws (c :: rest) =
      if isPySpace c then c :: enfRun .ws rest else c :: enfRun .line rest := by
  rw [enfRun]

theorem enf_line_cons (c : Char) (rest : List Char) :
    enfRun .line (c :: rest) =
      if c = '\n' then '\n' :: enfRun .scan rest else c :: enfRun .line rest := by
  rw [enfRun]

theorem enf_scan_ssp (rest : List Char) :
    enfRun .scan ('s':: 's':: 'p'::rest) =
      if rest.head? = some '.' then 's' :: enfRun .scan ('s':: 'p'::rest)
      else 's':: 's':: 'p':: '.':: enfRun .ws rest := by
  rw [enfRun]

theorem enf_scan_spp (rest : List Char) :
    enfRun .scan ('s':: 'p':: 'p'::rest) =
      if rest.head? = some '.' then 's' :: enfRun .scan ('p':: 'p'::rest)
      else 's':: 'p':: 'p':: '.':: enfRun .ws rest := by
  rw [enfRun]

theorem firstAbbrIdx_none_tail {c : Char} {rest : List Char}
    (h : firstAbbrIdx (c :: rest) = none) :
    unpunctAbbrHead (c :: rest) = false ∧ firstAbbrIdx rest = none := by
  rw [firstAbbrIdx] at h
  by_cases hu : unpunctAbbrHead (c :: rest) = true
  · rw [if_pos hu] at h
    cases h
  · rw [if_neg hu] at h
    refine ⟨by simpa using hu, ?_⟩
    cases hf : firstAbbrIdx rest with
    | none => rfl
    | some i => rw [hf] at h; cases h

theorem enfScan_fix : ∀ {l : List Char}, firstAbbrIdx l = none →
    enfRun .scan l = l := by
  have key : ∀ (ph : EnfPhase) (l : List Char), ph = .scan →
      firstAbbrIdx l = none → enfRun .scan l = l := by
    intro ph l
    induction ph, l using enfRun.induct with
    | case1 ph => intro _ _; rfl
    | case2 rest hdot ih =>
      intro _ h
      obtain ⟨_, htail⟩ := firstAbbrIdx_none_tail h
      rw [enf_scan_ssp, if_pos hdot, ih rfl htail]
    | case3 rest hdot ih =>
      intro _ h
      exfalso
      obtain ⟨hu, _⟩ := firstAbbrIdx_none_tail h
      rw [unpunctAbbrHead] at hu
      simp at hu
      exact hdot hu
    | case4 rest hdot ih =>
      intro _ h
      obtain ⟨_, htail⟩ := firstAbbrIdx_none_tail h
      rw [enf_scan_spp, if_pos hdot, ih rfl htail]
    | case5 rest hdot ih =>
      intro _ h
      exfalso
      obtain ⟨hu, _⟩ := firstAbbrIdx_none_tail h
      rw [unpunctAbbrHead] at hu
      simp at hu
      exact hdot hu
    | case6 c rest h1 h2 ih =>
      intro _ h
      obtain ⟨_, htail⟩ := firstAbbrIdx_none_tail h
      rw [enf_scan_pat h1 h2, ih rfl htail]
    | case7 c rest hsp ih => intro he; cases he
    | case8 c rest hsp ih => intro he; cases he
    | case9 rest ih => intro he; cases he
    | case10 c rest hnl ih => intro he; cases he
  intro l h
  exact key .scan l rfl h

theorem splitU_joinU {ps : List (List Char)} (hne : ps ≠ [])
    (hf : ∀ w ∈ ps, '_' ∉ w) : splitU (joinU ps) = ps := by
  induction ps with
  | nil => exact absurd rfl hne
  | cons w ws ih =>
    cases ws with
    | nil =>
      rw [joinU]
      exact splitU_no_underscore (hf w (List.mem_singleton_self _))
    | cons w2 ws2 =>
      rw [joinU_cons]
      rw [splitU_append (hf w (List.mem_cons_self _ _))]
      rw [ih (by simp) (fun w' hw' => hf w' (List.mem_cons_of_mem _ hw'))]

theorem splitSep_no_sep {l : List Char} (h : ∀ c ∈ l, isSep c = false) :
    splitSep l = [l] := by
  induction l with
  | nil => rfl
  | cons c r ih =>
    rw [splitSep, if_neg (by simp [h c (List.mem_cons_self _ _)])]
    rw [ih (fun c' hc' => h c' (List.mem_cons_of_mem _ hc'))]

theorem pathName_fix {l : List Char} (hsep : ∀ c ∈ l, isSep c = false)
    (hdot : l ≠ ['.']) : pathName l = l := by
  unfold pathName
  rw [splitSep_no_sep hsep]
  cases l with
  | nil => rfl
  | cons c r =>
    rw [List.filter]
    have hkeep : ((c :: r : List Char) ≠ [] && (c :: r : List Char) ≠ ['.']) = true := by
      simp [hdot]
    rw [hkeep]
    rfl

theorem dropWhile_fix {p : Char → Bool} {l : List Char}
    (h : ∀ c, l.head? = some c → p c = false) : l.dropWhile p = l := by
  cases l with
  | nil => rfl
  | cons c r => rw [List.dropWhile_cons, if_neg (by simp [h c rfl])]

theorem stripBy_fix {p : Char → Bool} {l : List Char}
    (h1 : ∀ c, l.head? = some c → p c = false)
    (h2 : ∀ c, l.getLast? = some c → p c = false) : stripBy p l = l := by
  unfold stripBy
  rw [dropWhile_fix h1]
  rw [dropWhile_fix (by
    intro c hc
    exact h2 c (by rwa [List.head?_reverse] at hc))]
  exact List.reverse_reverse l

theorem junk_toLower {c : Char} (h : isJunkChar c = true) : c.toLower = c := by
  simp only [isJunkChar, Bool.or_eq_true, decide_eq_true_eq] at h
  rcases h with ⟨⟨h | h⟩ | h⟩ | h <;> subst h <;> decide

theorem collapseU_dd {rest : List Char} :
    collapseU ('_' :: '_' :: rest) = collapseU ('_' :: rest) := by
  rw [collapseU]

theorem collapseU_cons_pat {c : Char} {rest : List Char}
    (h : ∀ r1, c = '_' → rest = '_' :: r1 → False) :
    collapseU (c :: rest) = c :: collapseU rest := by
  rw [collapseU]
  exact h

theorem collapseU_head : ∀ {l : List Char}, (collapseU l).head? = l.head? := by
  intro l
  induction l using collapseU.induct with
  | case1 => rfl
  | case2 rest ih => rw [collapseU_dd, ih]; rfl
  | case3 c rest h ih => rw [collapseU_cons_pat h]; rfl

theorem collapseU_subset {c : Char} :
    ∀ {l : List Char}, c ∈ collapseU l → c ∈ l := by
  intro l
  induction l using collapseU.induct with
  | case1 => intro h; cases h
  | case2 rest ih =>
    intro h
    rw [collapseU_dd] at h
    have hr := ih h
    simp only [List.mem_cons] at hr ⊢
    tauto
  | case3 c' rest h ih =>
    intro hm
    rw [collapseU_cons_pat h] at hm
    rcases List.mem_cons.mp hm with rfl | hm
    · exact List.mem_cons_self _ _
    · exact List.mem_cons_of_mem _ (ih hm)

theorem noDU_cons_pat {c : Char} {l : List Char}
    (h : ∀ t, c = '_' → l = '_' :: t → False) :
    noDoubleU (c :: l) = noDoubleU l := by
  rw [noDoubleU]
  exact h

theorem noDU_collapseU : ∀ {l : List Char}, noDoubleU (collapseU l) = true := by
  intro l
  induction l using collapseU.induct with
  | case1 => rfl
  | case2 rest ih => rw [collapseU_dd]; exact ih
  | case3 c rest h ih =>
    rw [collapseU_cons_pat h]
    have hside : ∀ t, c = '_' → collapseU rest = '_' :: t → False := by
      intro t hc he
      have hh : rest.head? = some '_' := by rw [← collapseU_head, he]; rfl
      cases rest with
      | nil => cases hh
      | cons d r' =>
        have hd : d = '_' := by simpa using hh
        exact h r' hc (by rw [hd])
    rw [noDU_cons_pat hside]
    exact ih

theorem sld_lichens {r : List Char} :
    stripLichensDot (' ':: 'L':: 'i':: 'c':: 'h':: 'e':: 'n':: 's'::r) =
      stripLichensDot r := by
  rw [stripLichensDot]

theorem sld_dot {r : List Char} :
    stripLichensDot ('.' :: r) = stripLichensDot r := by
  rw [stripLichensDot]

theorem sld_cons_pat {c : Char} {r : List Char}
    (h1 : ∀ r1, c = ' ' → r = 'L':: 'i':: 'c':: 'h':: 'e':: 'n':: 's'::r1 → False)
    (h2 : c = '.' → False) :
    stripLichensDot (c :: r) = c :: stripLichensDot r := by
  rw [stripLichensDot]
  · exact h1
  · exact h2

theorem sld_subset {c : Char} :
    ∀ {l : List Char}, c ∈ stripLichensDot l → c ∈ l := by
  intro l
  induction l using stripLichensDot.induct with
  | case1 => intro h; cases h
  | case2 r ih =>
    intro h
    rw [sld_lichens] at h
    have hr := ih h
    simp only [List.mem_cons] at hr ⊢
    tauto
  | case3 r ih =>
    intro h
    rw [sld_dot] at h
    exact List.mem_cons_of_mem _ (ih h)
  | case4 c' r h1 h2 ih =>
    intro h
    rw [sld_cons_pat h1 h2] at h
    rcases List.mem_cons.mp h with rfl | h
    · exact List.mem_cons_self _ _
    · exact List.mem_cons_of_mem _ (ih h)

theorem sld_no_dot : ∀ {l : List Char}, '.' ∉ stripLichensDot l := by
  intro l
  induction l using stripLichensDot.induct with
  | case1 => intro h; cases h
  | case2 r ih => rw [sld_lichens]; exact ih
  | case3 r ih => rw [sld_dot]; exact ih
  | case4 c r h1 h2 ih =>
    rw [sld_cons_pat h1 h2]
    intro h
    rcases List.mem_cons.mp h with he | h
    · exact h2 he.symm
    · exact ih h

theorem findRepl_mem :
    ∀ {m : List (List Char × List Char)} {l p r : List Char},
      findRepl m l = some (p, r) → (p, r) ∈ m := by
  intro m
  induction m with
  | nil => intro l p r h; rw [findRepl] at h; cases h
  | cons pr m' ih =>
    intro l p r h
    obtain ⟨p0, r0⟩ := pr
    rw [findRepl] at h
    by_cases hp : p0.isPrefixOf l = true
    · rw [if_pos hp] at h
      rcases h with ⟨rfl, rfl⟩
      exact List.mem_cons_self _ _
    · rw [if_neg hp] at h
      exact List.mem_cons_of_mem _ (ih h)

theorem replaceManyFuel_mem {m : List (List Char × List Char)} {c : Char} :
    ∀ {n : Nat} {l : List Char}, c ∈ replaceManyFuel m n l →
      c ∈ l ∨ ∃ pr ∈ m, c ∈ pr.2 := by
  intro n l
  induction n, l using replaceManyFuel.induct m with
  | case1 l => intro h; exact Or.inl h
  | case2 n => intro h; cases h
  | case3 n c' rest p r hf ih =>
    intro h
    rw [replaceManyFuel, hf] at h
    rcases List.mem_append.mp h with h | h
    · exact Or.inr ⟨(p, r), findRepl_mem hf, h⟩
    · rcases ih h with h | h
      · exact Or.inl (List.drop_subset _ _ h)
      · exact Or.inr h
  | case4 n c' rest hf ih =>
    intro h
    rw [replaceManyFuel, hf] at h
    rcases List.mem_cons.mp h with rfl | h
    · exact Or.inl (List.mem_cons_self _ _)
    · rcases ih h with h | h
      · exact Or.inl (List.mem_cons_of_mem _ h)
      · exact Or.inr h

theorem taxonFolderL_slug {t : List Char}
    (hok : ∀ c ∈ t, asciiTextOk c = true) :
    ∀ c ∈ taxonFolderL t, isSlugChar c = true := by
  intro c hc
  have hrep : ∀ c0 ∈ replaceMany folderMapping t, asciiTextOk c0 = true := by
    intro c0 hc0
    rcases replaceManyFuel_mem hc0 with hcl | ⟨pr, hpr, hcr⟩
    · exact hok c0 hcl
    · have hall : ∀ pr ∈ folderMapping, ∀ c1 ∈ pr.2, asciiTextOk c1 = true := by
        decide
      exact hall pr hpr c0 hcr
  unfold taxonFolderL at hc
  have hc2 := collapseU_subset hc
  rcases List.mem_map.mp hc2 with ⟨d, hd, hdc⟩
  rcases List.mem_map.mp hd with ⟨c0, hc0, rfl⟩
  have hc0ok : asciiTextOk c0 = true := hrep c0 (sld_subset hc0)
  have hc0dot : c0 ≠ '.' := by
    intro e
    exact sld_no_dot (e ▸ hc0)
  by_cases hcond :
      (isPySpace c0.toLower || c0.toLower = '&' || c0.toLower = '-') = true
  · rw [if_pos hcond] at hdc
    subst hdc
    decide
  · rw [if_neg hcond] at hdc
    subst hdc
    simp only [asciiTextOk, Bool.or_eq_true] at hc0ok
    rcases hc0ok with ((ha | hdg) | hs) | hj
    · exact (slug_of_toNat_range (alnum_toLower_range (Or.inl ha))).1
    · exact (slug_of_toNat_range (alnum_toLower_range (Or.inr hdg))).1
    · exfalso
      apply hcond
      rw [pySpace_toLower hs]
      simp [hs]
    · rw [junk_toLower hj] at hcond ⊢
      simp only [isJunkChar, Bool.or_eq_true, decide_eq_true_eq] at hj
      rcases hj with ⟨⟨hj | hj⟩ | hj⟩ | hj
      · exfalso; apply hcond; simp [hj]
      · exact absurd hj hc0dot
      · exfalso; apply hcond; simp [hj]
      · subst hj; decide

theorem take3_shape {l : List Char} {a b c : Char} (h : l.take 3 = [a, b, c]) :
    l = a :: b :: c :: l.drop 3 := by
  cases l with
  | nil => simp at h
  | cons x t =>
    cases t with
    | nil => simp at h
    | cons y t2 =>
      cases t2 with
      | nil => simp at h
      | cons z t3 =>
        simp only [List.take, List.cons.injEq, and_true] at h
        obtain ⟨rfl, rfl, rfl⟩ := h
        rfl

theorem take2_shape {l : List Char} {a b : Char} (h : l.take 2 = [a, b]) :
    l = a :: b :: l.drop 2 := by
  cases l with
  | nil => simp at h
  | cons x t =>
    cases t with
    | nil => simp at h
    | cons y t2 =>
      simp only [List.take, List.cons.injEq, and_true] at h
      obtain ⟨rfl, rfl⟩ := h
      rfl

theorem head?_shape {l : List Char} {a : Char} (h : l.head? = some a) :
    l = a :: l.tail := by
  cases l with
  | nil => cases h
  | cons x t => injection h with h; rw [h]; rfl

theorem afterWsLine_len (r : List Char) : (afterWsLine r).length ≤ r.length :=
  le_trans (((r.dropWhile isPySpace).dropWhile_sublist
    (fun c => c ≠ '\n')).length_le)
    ((r.dropWhile_sublist isPySpace).length_le)

theorem specEnforce_none {l : List Char} (h : firstAbbrIdx l = none) :
    specEnforce l = l := by
  rw [specEnforce.eq_def]
  split
  · rfl
  · rename_i i heq
    rw [h] at heq
    cases heq

theorem specEnforce_some {l : List Char} {i : Nat}
    (h : firstAbbrIdx l = some i) :
    specEnforce l = l.take (i + 3) ++ '.' ::
      (wsLinePart (l.drop (i + 3)) ++
        specEnforce (afterWsLine (l.drop (i + 3)))) := by
  rw [specEnforce.eq_def]
  split
  · rename_i heq
    rw [h] at heq
    cases heq
  · rename_i i' heq
    rw [h] at heq
    injection heq with heq
    rw [heq]

theorem firstAbbrIdx_zero {l : List Char} (h : firstAbbrIdx l = some 0) :
    unpunctAbbrHead l = true := by
  cases l with
  | nil => simp [firstAbbrIdx] at h
  | cons c t =>
    rw [firstAbbrIdx] at h
    by_cases hu : unpunctAbbrHead (c :: t) = true
    · exact hu
    · rw [if_neg hu] at h
      cases hf : firstAbbrIdx t with
      | none => rw [hf] at h; cases h
      | some i =>
        rw [hf] at h
        simp only [Option.map_some'] at h
        injection h with h
        exact absurd h (by omega)

theorem firstAbbrIdx_succ {c : Char} {t : List Char} {j : Nat}
    (h : firstAbbrIdx (c :: t) = some (j + 1)) :
    unpunctAbbrHead (c :: t) = false ∧ firstAbbrIdx t = some j := by
  rw [firstAbbrIdx] at h
  by_cases hu : unpunctAbbrHead (c :: t) = true
  · rw [if_pos hu] at h
    injection h with h
    exact absurd h (by omega)
  · rw [if_neg hu] at h
    refine ⟨by simpa using hu, ?_⟩
    cases hf : firstAbbrIdx t with
    | none => rw [hf] at h; cases h
    | some i =>
      rw [hf] at h
      simp only [Option.map_some'] at h
      injection h with h
      have hij : i = j := by omega
      rw [hij]

theorem unpunct_shape {l : List Char} (h : unpunctAbbrHead l = true) :
    (l = 's':: 's':: 'p'::l.drop 3 ∨ l = 's':: 'p':: 'p'::l.drop 3) ∧
      ¬(l.drop 3).head? = some '.' := by
  simp only [unpunctAbbrHead, Bool.and_eq_true, Bool.or_eq_true,
    beq_iff_eq] at h
  obtain ⟨h1, h2⟩ := h
  refine ⟨?_, by simpa using h2⟩
  rcases h1 with h1 | h1
  · exact Or.inl (take3_shape h1)
  · exact Or.inr (take3_shape h1)

theorem enfLine_split (r : List Char) :
    enfRun .line r = r.takeWhile (fun c => c ≠ '\n') ++
      enfRun .scan (r.dropWhile (fun c => c ≠ '\n')) := by
  induction r with
  | nil => rfl
  | cons c r' ih =>
    by_cases hc : c = '\n'
    · subst hc
      rw [enf_line_cons, if_pos rfl, List.takeWhile_cons, List.dropWhile_cons]
      rw [if_neg (by simp), if_neg (by simp)]
      rw [enf_scan_cons_ne (by decide)]
      rfl
    · rw [enf_line_cons, if_neg hc, List.takeWhile_cons, List.dropWhile_cons]
      rw [if_pos (by simp [hc]), if_pos (by simp [hc]), ih]
      rfl

theorem newline_is_space : isPySpace '\n' = true := by decide

theorem enfWs_split (r : List Char) :
    enfRun .ws r = wsLinePart r ++ enfRun .scan (afterWsLine r) := by
  induction r with
  | nil => rfl
  | cons c r' ih =>
    unfold wsLinePart afterWsLine at ih ⊢
    by_cases hc : isPySpace c = true
    · rw [enf_ws_cons, if_pos hc, List.takeWhile_cons, List.dropWhile_cons]
      rw [if_pos hc, if_pos hc, ih]
      rfl
    · have hnl : c ≠ '\n' := by
        intro e
        rw [e] at hc
        exact hc newline_is_space
      rw [enf_ws_cons, if_neg hc, List.takeWhile_cons, List.dropWhile_cons]
      rw [if_neg hc, if_neg hc, List.takeWhile_cons, List.dropWhile_cons]
      rw [if_pos (by simp [hnl]), if_pos (by simp [hnl])]
      rw [enfLine_split r']
      rfl

theorem enf_scan_step {c : Char} {t : List Char}
    (hu : unpunctAbbrHead (c :: t) = false) :
    enfRun .scan (c :: t) = c :: enfRun .scan t := by
  by_cases hc : c = 's'
  · subst hc
    cases t with
    | nil => exact enf_scan_cons_s (fun r1 h => by cases h) (fun r1 h => by cases h)
    | cons d t2 =>
      cases t2 with
      | nil =>
        refine enf_scan_cons_s ?_ ?_ <;> intro r1 h <;> simp at h
      | cons e t3 =>
        by_cases hd : d = 's' ∧ e = 'p'
        · obtain ⟨rfl, rfl⟩ := hd
          have hdot : t3.head? = some '.' := by
            simpa [unpunctAbbrHead] using hu
          rw [enf_scan_ssp, if_pos hdot]
        · by_cases he : d = 'p' ∧ e = 'p'
          · obtain ⟨rfl, rfl⟩ := he
            have hdot : t3.head? = some '.' := by
              simpa [unpunctAbbrHead] using hu
            rw [enf_scan_spp, if_pos hdot]
          · refine enf_scan_cons_s ?_ ?_
            · intro r1 h
              injection h with h1 h2
              injection h2 with h2 h3
              exact hd ⟨h1, h2⟩
            · intro r1 h
              injection h with h1 h2
              injection h2 with h2 h3
              exact he ⟨h1, h2⟩
  · exact enf_scan_cons_ne hc t

theorem specEnforce_shift {c : Char} {t : List Char} {j : Nat}
    (h : firstAbbrIdx (c :: t) = some (j + 1)) :
    specEnforce (c :: t) = c :: specEnforce t := by
  have ht := (firstAbbrIdx_succ h).2
  rw [specEnforce_some h, specEnforce_some ht]
  have e : j + 1 + 3 = (j + 3) + 1 := by omega
  rw [e, List.take_succ_cons, List.drop_succ_cons]
  rfl

theorem enfScan_spec : ∀ (n : Nat) (l : List Char), l.length ≤ n →
    enfRun .scan l = specEnforce l := by
  intro n
  induction n with
  | zero =>
    intro l hl
    have hnil : l = [] := List.length_eq_zero.mp (Nat.le_zero.mp hl)
    subst hnil
    have h0 : firstAbbrIdx ([] : List Char) = none := rfl
    rw [specEnforce_none h0]
    rfl
  | succ n ih =>
    intro l hl
    cases hf : firstAbbrIdx l with
    | none => rw [enfScan_fix hf, specEnforce_none hf]
    | some i =>
      cases i with
      | zero =>
        obtain ⟨hsh, hdot⟩ := unpunct_shape (firstAbbrIdx_zero hf)
        rw [specEnforce_some hf]
        rcases hsh with hsh | hsh
        · obtain ⟨rest, hrest⟩ : ∃ rest, l = 's':: 's':: 'p'::rest :=
            ⟨l.drop 3, hsh⟩
          subst hrest
          simp only [List.drop_succ_cons, List.drop_zero] at hdot ⊢
          rw [enf_scan_ssp, if_neg hdot, enfWs_split]
          rw [ih (afterWsLine rest) (by
            have hle := afterWsLine_len rest
            simp only [List.length_cons] at hl
            omega)]
          rfl
        · obtain ⟨rest, hrest⟩ : ∃ rest, l = 's':: 'p':: 'p'::rest :=
            ⟨l.drop 3, hsh⟩
          subst hrest
          simp only [List.drop_succ_cons, List.drop_zero] at hdot ⊢
          rw [enf_scan_spp, if_neg hdot, enfWs_split]
          rw [ih (afterWsLine rest) (by
            have hle := afterWsLine_len rest
            simp only [List.length_cons] at hl
            omega)]
          rfl
      | succ j =>
        cases l with
        | nil => simp [firstAbbrIdx] at hf
        | cons c t =>
          obtain ⟨hu, ht⟩ := firstAbbrIdx_succ hf
          rw [specEnforce_shift hf, enf_scan_step hu]
          rw [ih t (by
            simp only [List.length_cons] at hl
            omega)]

theorem take1_congr {x y : List Char} (h : x.head? = y.head?) :
    x.take 1 = y.take 1 := by
  cases x <;> cases y <;> simp_all [List.take]

theorem enf_head : ∀ (ph : EnfPhase) (l : List Char),
    (enfRun ph l).head? = l.head? := by
  intro ph l
  induction ph, l using enfRun.induct with
  | case1 ph => cases ph <;> rfl
  | case2 rest hdot ih => rw [enf_scan_ssp, if_pos hdot]; rfl
  | case3 rest hdot ih => rw [enf_scan_ssp, if_neg hdot]; rfl
  | case4 rest hdot ih => rw [enf_scan_spp, if_pos hdot]; rfl
  | case5 rest hdot ih => rw [enf_scan_spp, if_neg hdot]; rfl
  | case6 c rest h1 h2 ih => rw [enf_scan_pat h1 h2]; rfl
  | case7 c rest hsp ih => rw [enf_ws_cons, if_pos hsp]; rfl
  | case8 c rest hsp ih => rw [enf_ws_cons, if_neg hsp]; rfl
  | case9 rest ih => rw [enf_line_cons, if_pos rfl]; rfl
  | case10 c rest hnl ih => rw [enf_line_cons, if_neg hnl]; rfl

theorem enf_take2 : ∀ (ph : EnfPhase) (l : List Char),
    (enfRun ph l).take 2 = l.take 2 := by
  intro ph l
  induction ph, l using enfRun.induct with
  | case1 ph => cases ph <;> rfl
  | case2 rest hdot ih =>
    rw [enf_scan_ssp, if_pos hdot]
    show 's' :: (enfRun .scan ('s':: 'p'::rest)).take 1 = 's' :: ['s']
    rw [take1_congr (enf_head .scan ('s':: 'p'::rest))]
    rfl
  | case3 rest hdot ih => rw [enf_scan_ssp, if_neg hdot]; rfl
  | case4 rest hdot ih =>
    rw [enf_scan_spp, if_pos hdot]
    show 's' :: (enfRun .scan ('p':: 'p'::rest)).take 1 = 's' :: ['p']
    rw [take1_congr (enf_head .scan ('p':: 'p'::rest))]
    rfl
  | case5 rest hdot ih => rw [enf_scan_spp, if_neg hdot]; rfl
  | case6 c rest h1 h2 ih =>
    rw [enf_scan_pat h1 h2]
    show c :: (enfRun .scan rest).take 1 = c :: rest.take 1
    rw [take1_congr (enf_head .scan rest)]
  | case7 c rest hsp ih =>
    rw [enf_ws_cons, if_pos hsp]
    show c :: (enfRun .ws rest).take 1 = c :: rest.take 1
    rw [take1_congr (enf_head .ws rest)]
  | case8 c rest hsp ih =>
    rw [enf_ws_cons, if_neg hsp]
    show c :: (enfRun .line rest).take 1 = c :: rest.take 1
    rw [take1_congr (enf_head .line rest)]
  | case9 rest ih =>
    rw [enf_line_cons, if_pos rfl]
    show '\n' :: (enfRun .scan rest).take 1 = '\n' :: rest.take 1
    rw [take1_congr (enf_head .scan rest)]
  | case10 c rest hnl ih =>
    rw [enf_line_cons, if_neg hnl]
    show c :: (enfRun .line rest).take 1 = c :: rest.take 1
    rw [take1_congr (enf_head .line rest)]

theorem space_props {c : Char} (h : isPySpace c = true) :
    isJunkChar c = false ∧ c ≠ 's' := by
  simp only [isPySpace, Bool.or_eq_true, decide_eq_true_eq] at h
  rcases h with ⟨⟨⟨⟨h | h⟩ | h⟩ | h⟩ | h⟩ | h <;> subst h <;>
    exact ⟨by decide, by decide⟩

theorem removeJunk_spp (X : List Char) :
    removeJunk ('s':: 'p':: 'p'::X) = removeJunk X := by
  rw [removeJunk]

theorem removeJunk_ssp (X : List Char) :
    removeJunk ('s':: 's':: 'p'::X) = removeJunk X := by
  rw [removeJunk]

theorem removeJunk_cons_s_take2 {X : List Char}
    (h1 : X.take 2 ≠ ['s', 'p']) (h2 : X.take 2 ≠ ['p', 'p']) :
    removeJunk ('s' :: X) = 's' :: removeJunk X :=
  removeJunk_cons_s (fun r1 e => h2 (by rw [e]; rfl))
    (fun r1 e => h1 (by rw [e]; rfl))

theorem removeJunk_s_sp (X : List Char) (h : X.take 2 = ['s', 'p']) :
    removeJunk ('s' :: X) = removeJunk (X.drop 2) := by
  obtain ⟨X2, hx⟩ : ∃ X2, X = 's' :: 'p' :: X2 := ⟨X.drop 2, take2_shape h⟩
  rw [hx, removeJunk_ssp]
  rfl

theorem removeJunk_s_pp (X : List Char) (h : X.take 2 = ['p', 'p']) :
    removeJunk ('s' :: X) = removeJunk (X.drop 2) := by
  obtain ⟨X2, hx⟩ : ∃ X2, X = 'p' :: 'p' :: X2 := ⟨X.drop 2, take2_shape h⟩
  rw [hx, removeJunk_spp]
  rfl

theorem exp_line2 {a b : Char} (ha : a ≠ '\n') (hb : b ≠ '\n')
    (r : List Char) :
    enfRun .line (a :: b :: r) = a :: b :: enfRun .line r := by
  rw [enf_line_cons, if_neg ha, enf_line_cons, if_neg hb]

theorem rj_cons_step {c : Char} {t : List Char} {n : Nat}
    (ih : ∀ (ph : EnfPhase) (l : List Char), l.length ≤ n →
      removeJunk (enfRun ph l) = removeJunk l)
    (hlt : t.length ≤ n) :
    removeJunk (c :: enfRun .line t) = removeJunk (c :: t) := by
  by_cases hj : isJunkChar c = true
  · rw [removeJunk_cons_junk hj, removeJunk_cons_junk hj, ih .line t hlt]
  · by_cases hs : c = 's'
    · subst hs
      by_cases h2a : t.take 2 = ['s', 'p']
      · obtain ⟨t2, ht2⟩ : ∃ t2, t = 's' :: 'p' :: t2 := ⟨t.drop 2, take2_shape h2a⟩
        subst ht2
        rw [exp_line2 (by decide) (by decide)]
        rw [removeJunk_ssp, removeJunk_ssp]
        exact ih .line t2 (by simp only [List.length_cons] at hlt; omega)
      · by_cases h2b : t.take 2 = ['p', 'p']
        · obtain ⟨t2, ht2⟩ : ∃ t2, t = 'p' :: 'p' :: t2 :=
            ⟨t.drop 2, take2_shape h2b⟩
          subst ht2
          rw [exp_line2 (by decide) (by decide)]
          rw [removeJunk_spp, removeJunk_spp]
          exact ih .line t2 (by simp only [List.length_cons] at hlt; omega)
        · have h2a' : (enfRun .line t).take 2 ≠ ['s', 'p'] := by
            rw [enf_take2]; exact h2a
          have h2b' : (enfRun .line t).take 2 ≠ ['p', 'p'] := by
            rw [enf_take2]; exact h2b
          rw [removeJunk_cons_s_take2 h2a' h2b',
            removeJunk_cons_s_take2 h2a h2b, ih .line t hlt]
    · have hjf : isJunkChar c = false := by simpa using hj
      rw [removeJunk_cons_copy hjf hs, removeJunk_cons_copy hjf hs,
        ih .line t hlt]

theorem rj_enf : ∀ (n : Nat) (ph : EnfPhase) (l : List Char), l.length ≤ n →
    removeJunk (enfRun ph l) = removeJunk l := by
  intro n
  induction n with
  | zero =>
    intro ph l hl
    have hnil : l = [] := List.length_eq_zero.mp (Nat.le_zero.mp hl)
    subst hnil
    cases ph <;> rfl
  | succ n ih =>
    intro ph l hl
    cases l with
    | nil => cases ph <;> rfl
    | cons c t =>
      simp only [List.length_cons] at hl
      have hlt : t.length ≤ n := by omega
      cases ph with
      | ws =>
        rw [enf_ws_cons]
        by_cases hsp : isPySpace c = true
        · rw [if_pos hsp]
          obtain ⟨hj, hs⟩ := space_props hsp
          rw [removeJunk_cons_copy hj hs, removeJunk_cons_copy hj hs,
            ih .ws t hlt]
        · rw [if_neg hsp]
          exact rj_cons_step ih hlt
      | line =>
        by_cases hnl : c = '\n'
        · subst hnl
          rw [enf_line_cons, if_pos rfl]
          rw [removeJunk_cons_copy (by decide) (by decide),
            removeJunk_cons_copy (by decide) (by decide), ih .scan t hlt]
        · rw [enf_line_cons, if_neg hnl]
          exact rj_cons_step ih hlt
      | scan =>
        by_cases h3a : (c :: t).take 3 = ['s', 's', 'p']
        · have hsh := take3_shape h3a
          injection hsh with hc hsh
          subst hc
          obtain ⟨rest, hrest⟩ : ∃ rest, t = 's' :: 'p' :: rest := ⟨_, hsh⟩
          subst hrest
          simp only [List.length_cons] at hl hlt
          by_cases hdot : rest.head? = some '.'
          · obtain ⟨r2, hr2⟩ : ∃ r2, rest = '.' :: r2 :=
              ⟨rest.tail, head?_shape hdot⟩
            subst hr2
            rw [enf_scan_ssp, if_pos hdot]
            rw [enf_scan_cons_s (fun r1 h => by simp at h)
              (fun r1 h => by simp at h)]
            rw [enf_scan_cons_ne (by decide), enf_scan_cons_ne (by decide)]
            rw [removeJunk_ssp, removeJunk_ssp,
              removeJunk_cons_junk (by decide), removeJunk_cons_junk (by decide)]
            exact ih .scan r2 (by simp only [List.length_cons] at hl; omega)
          · rw [enf_scan_ssp, if_neg hdot]
            rw [removeJunk_ssp, removeJunk_ssp,
              removeJunk_cons_junk (by decide)]
            exact ih .ws rest (by omega)
        · by_cases h3b : (c :: t).take 3 = ['s', 'p', 'p']
          · have hsh := take3_shape h3b
            injection hsh with hc hsh
            subst hc
            obtain ⟨rest, hrest⟩ : ∃ rest, t = 'p' :: 'p' :: rest :=
              ⟨_, hsh⟩
            subst hrest
            simp only [List.length_cons] at hl hlt
            by_cases hdot : rest.head? = some '.'
            · obtain ⟨r2, hr2⟩ : ∃ r2, rest = '.' :: r2 :=
                ⟨rest.tail, head?_shape hdot⟩
              subst hr2
              rw [enf_scan_spp, if_pos hdot]
              rw [enf_scan_cons_ne (by decide), enf_scan_cons_ne (by decide),
                enf_scan_cons_ne (by decide)]
              rw [removeJunk_spp, removeJunk_spp,
                removeJunk_cons_junk (by decide),
                removeJunk_cons_junk (by decide)]
              exact ih .scan r2
                (by simp only [List.length_cons] at hl; omega)
            · rw [enf_scan_spp, if_neg hdot]
              rw [removeJunk_spp, removeJunk_spp,
                removeJunk_cons_junk (by decide)]
              exact ih .ws rest (by omega)
          · have h1 : ∀ r1, c = 's' → t = 's' :: 'p' :: r1 → False := by
              intro r1 hc ht
              apply h3a
              rw [hc, ht]
              rfl
            have h2 : ∀ r1, c = 's' → t = 'p' :: 'p' :: r1 → False := by
              intro r1 hc ht
              apply h3b
              rw [hc, ht]
              rfl
            rw [enf_scan_pat h1 h2]
            by_cases hj : isJunkChar c = true
            · rw [removeJunk_cons_junk hj, removeJunk_cons_junk hj,
                ih .scan t hlt]
            · by_cases hs : c = 's'
              · subst hs
                have h2a : t.take 2 ≠ ['s', 'p'] := by
                  intro e
                  apply h3a
                  show 's' :: t.take 2 = ['s', 's', 'p']
                  rw [e]
                have h2b : t.take 2 ≠ ['p', 'p'] := by
                  intro e
                  apply h3b
                  show 's' :: t.take 2 = ['s', 'p', 'p']
                  rw [e]
                have h2a' : (enfRun .scan t).take 2 ≠ ['s', 'p'] := by
                  rw [enf_take2]; exact h2a
                have h2b' : (enfRun .scan t).take 2 ≠ ['p', 'p'] := by
                  rw [enf_take2]; exact h2b
                rw [removeJunk_cons_s_take2 h2a' h2b',
                  removeJunk_cons_s_take2 h2a h2b, ih .scan t hlt]
              · have hjf : isJunkChar c = false := by simpa using hj
                rw [removeJunk_cons_copy hjf hs, removeJunk_cons_copy hjf hs,
                  ih .scan t hlt]

/-! ## Claim theorems -/

/-- C1 counterexample: the short code of
`"Calicium tigillare & Calicium pinicola"` is not the claimed
four-segment value `"calic_tigil_calic_pinic"` — the `&` is deleted rather
than kept as a token, so the duplicate-genus rule fires. -/
theorem short_code_calicium_claim_false :
    generate_short_code "Calicium tigillare & Calicium pinicola" ≠
      "calic_tigil_calic_pinic" := by
  decide

/-- C1 (amended): after character cleanup of
`"Calicium tigillare & Calicium pinicola"` the repeated genus token sits at
positions 0 and 2 of the word-part list, so the duplicate-genus rule DOES
apply, the token at position 2 is dropped, and the short code is
`"calic_tigil_pinic"`. -/
theorem short_code_calicium_dup_genus_applies :
    cleanParts "Calicium tigillare & Calicium pinicola".data =
      ["calicium".data, "tigillare".data, "calicium".data, "pinicola".data] ∧
    generate_short_code "Calicium tigillare & Calicium pinicola" =
      "calic_tigil_pinic" :=
  ⟨by decide, by decide⟩

/-- C2 counterexample: on the input `"a,bcdef"` the short code is returned
as a single unmodified word-part, which contains the character `,` outside
`[a-z0-9_]` and has seven characters, so neither the claimed character-set
invariant nor the five-character bound holds for every non-sentinel
output. -/
theorem short_code_shape_claim_false :
    generate_short_code "a,bcdef" = "a,bcdef" ∧
    (',' ∈ (generate_short_code "a,bcdef").data ∧ isSlugChar ',' = false) ∧
    ∃ w ∈ splitU (generate_short_code "a,bcdef").data, 5 < w.length :=
  ⟨by decide, ⟨by decide, by decide⟩, ⟨"a,bcdef".data, by decide, by decide⟩⟩

/-- Shape of the short code when cleanup yields at least two word-parts:
it is an underscore-join of five-character truncations of cleaned parts. -/
theorem gscL_join_shape {l p q : List Char} {rest : List (List Char)}
    (hp : cleanParts l = p :: q :: rest) :
    ∃ ps : List (List Char), ps ≠ [] ∧ gscL l = joinU ps ∧
      ∀ w ∈ ps, ∃ w0 ∈ cleanParts l, w = w0.take 5 := by
  unfold gscL
  rw [hp]
  cases rest with
  | nil =>
    refine ⟨[p.take 5, q.take 5], by simp, rfl, ?_⟩
    intro w hw
    rcases List.mem_cons.mp hw with rfl | hw
    · exact ⟨p, List.mem_cons_self _ _, rfl⟩
    · rcases List.mem_singleton.mp hw with rfl
      exact ⟨q, by simp, rfl⟩
  | cons p2 rest2 =>
    show ∃ ps, ps ≠ [] ∧
      (if p = p2 then joinU (List.map (List.take 5) (p :: q :: rest2))
       else joinU (List.map (List.take 5) (p :: q :: p2 :: rest2))) =
        joinU ps ∧
      ∀ w ∈ ps, ∃ w0 ∈ p :: q :: p2 :: rest2, w = List.take 5 w0
    by_cases he : p = p2
    · rw [if_pos he]
      refine ⟨(p :: q :: rest2).map (List.take 5), by simp, rfl, ?_⟩
      intro w hw
      rcases List.mem_map.mp hw with ⟨w0, hw0, rfl⟩
      refine ⟨w0, ?_, rfl⟩
      rcases List.mem_cons.mp hw0 with rfl | hw0
      · exact List.mem_cons_self _ _
      · rcases List.mem_cons.mp hw0 with rfl | hw0
        · simp
        · simp [hw0]
    · rw [if_neg he]
      refine ⟨(p :: q :: p2 :: rest2).map (List.take 5), by simp, rfl, ?_⟩
      intro w hw
      rcases List.mem_map.mp hw with ⟨w0, hw0, rfl⟩
      exact ⟨w0, hw0, rfl⟩

/-- C2 (amended): when the short code is not the sentinel, its shape depends
on the number of cleaned word-parts: with two or more parts every
underscore-separated word-part of the code has at most five characters;
with exactly one part the code is that part returned unmodified (and may
exceed five characters); and the code consists only of characters in
`[a-z0-9_]` provided the input consists of ASCII letters, digits,
whitespace and the characters `& . - _`. -/
theorem short_code_shape :
    (∀ (s : String) (p q : List Char) (rest : List (List Char)),
        cleanParts s.data = p :: q :: rest →
        ∀ w ∈ splitU (generate_short_code s).data, w.length ≤ 5) ∧
    (∀ (s : String) (p : List Char), cleanParts s.data = [p] →
        generate_short_code s = ⟨p⟩) ∧
    (∀ s : String, (∀ c ∈ s.data, asciiTextOk c = true) →
        generate_short_code s ≠ "Error" →
        ∀ c ∈ (generate_short_code s).data, isSlugChar c = true) := by
  refine ⟨?_, ?_, ?_⟩
  · intro s p q rest hp w hw
    obtain ⟨ps, hne, hgl, hmem⟩ := gscL_join_shape hp
    have hdata : (generate_short_code s).data = joinU ps := hgl
    rw [hdata] at hw
    have hfree : ∀ w' ∈ ps, '_' ∉ w' := by
      intro w' hw' hu
      rcases hmem w' hw' with ⟨w0, hw0, rfl⟩
      exact cleanParts_no_underscore w0 hw0 (List.take_subset _ _ hu)
    rw [splitU_joinU hne hfree] at hw
    rcases hmem w hw with ⟨w0, _, rfl⟩
    simp [List.length_take_le]
  · intro s p hp
    unfold generate_short_code gscL
    rw [hp]
  · intro s hok herr c hc
    cases hcp : cleanParts s.data with
    | nil =>
      exfalso
      apply herr
      unfold generate_short_code gscL
      rw [hcp]
    | cons p tail =>
      cases tail with
      | nil =>
        have hdata : (generate_short_code s).data = p := by
          unfold generate_short_code gscL
          rw [hcp]
        rw [hdata] at hc
        exact cleanParts_slug hok p (hcp ▸ List.mem_singleton_self _) c hc
      | cons q rest =>
        obtain ⟨ps, _, hgl, hmem⟩ := gscL_join_shape hcp
        have hdata : (generate_short_code s).data = joinU ps := hgl
        rw [hdata] at hc
        rcases joinU_mem hc with ⟨w, hw, hcw⟩ | rfl
        · rcases hmem w hw with ⟨w0, hw0, rfl⟩
          exact cleanParts_slug hok w0 hw0 c (List.take_subset _ _ hcw)
        · decide

/-- C2 witness: the amended shape statements evaluated at
`"Parmelia pseudosulcata"` (two parts, truncated, slug characters) and
`"Stereocaulon"` (one part, returned unmodified). -/
theorem short_code_shape_witness :
    (∀ w ∈ splitU (generate_short_code "Parmelia pseudosulcata").data,
        w.length ≤ 5) ∧
    generate_short_code "Stereocaulon" = ⟨"stereocaulon".data⟩ ∧
    (∀ c ∈ (generate_short_code "Parmelia pseudosulcata").data,
        isSlugChar c = true) :=
  ⟨short_code_shape.1 "Parmelia pseudosulcata" "parmelia".data
      "pseudosulcata".data [] (by decide),
   short_code_shape.2.1 "Stereocaulon" "stereocaulon".data (by decide),
   short_code_shape.2.2 "Parmelia pseudosulcata" (by decide) (by decide)⟩

/-- C3 counterexample: normalization is not idempotent — on `"_ _abc"` one
application yields `"_abc"` (the single strip-underscores pass runs before
the strip-whitespace pass, so an alternating `_ `-run survives), and a
second application strips further to `"abc"`. -/
theorem taxon_name_not_idempotent :
    generate_taxon_name (generate_taxon_name "_ _abc") ≠
      generate_taxon_name "_ _abc" := by
  decide

/-- C3 (amended): `generate_taxon_name` is idempotent on every input whose
normalized form contains no path separator, is not the single component
`"."`, neither starts nor ends with an underscore or a whitespace
character, and in which every occurrence of `ssp`/`spp` is already
followed by a period. -/
theorem taxon_name_idem (x : String)
    (h1 : noSepL (generate_taxon_name x).data = true)
    (h2 : (generate_taxon_name x).data ≠ ['.'])
    (h3 : edgeOkL (generate_taxon_name x).data = true)
    (h4 : firstAbbrIdx (generate_taxon_name x).data = none) :
    generate_taxon_name (generate_taxon_name x) = generate_taxon_name x := by
  have hsep : ∀ c ∈ (generate_taxon_name x).data, isSep c = false := by
    intro c hc
    have hq := List.all_eq_true.mp h1 c hc
    simpa using hq
  rw [edgeOkL, Bool.and_eq_true] at h3
  obtain ⟨hh3, hl3⟩ := h3
  have hH : ∀ c, (generate_taxon_name x).data.head? = some c →
      decide (c = '_') = false ∧ isPySpace c = false := by
    intro c hc
    rw [hc] at hh3
    simp only [Bool.not_eq_true', Bool.or_eq_false_iff] at hh3
    exact hh3
  have hL : ∀ c, (generate_taxon_name x).data.getLast? = some c →
      decide (c = '_') = false ∧ isPySpace c = false := by
    intro c hc
    rw [hc] at hl3
    simp only [Bool.not_eq_true', Bool.or_eq_false_iff] at hl3
    exact hl3
  have hpath : pathName (generate_taxon_name x).data =
      (generate_taxon_name x).data := pathName_fix hsep h2
  have hsu : stripUnd (generate_taxon_name x).data =
      (generate_taxon_name x).data :=
    stripBy_fix (fun c hc => (hH c hc).1) (fun c hc => (hL c hc).1)
  have hsw : stripWs (generate_taxon_name x).data =
      (generate_taxon_name x).data :=
    stripBy_fix (fun c hc => (hH c hc).2) (fun c hc => (hL c hc).2)
  have hchain : gtnL (generate_taxon_name x).data =
      (generate_taxon_name x).data := by
    unfold gtnL
    rw [hpath, hsu, hsw]
    exact enfScan_fix h4
  show (⟨gtnL (generate_taxon_name x).data⟩ : String) = generate_taxon_name x
  rw [hchain]

/-- C3 witness: idempotence holds at the repository's own example input
`"_Alectoria sarmentosa ssp vexillifera"`, whose normalized form
`"Alectoria sarmentosa ssp. vexillifera"` satisfies every side
condition. -/
theorem taxon_name_idem_witness :
    noSepL (generate_taxon_name "_Alectoria sarmentosa ssp vexillifera").data
        = true ∧
    (generate_taxon_name "_Alectoria sarmentosa ssp vexillifera").data
        ≠ ['.'] ∧
    edgeOkL (generate_taxon_name "_Alectoria sarmentosa ssp vexillifera").data
        = true ∧
    firstAbbrIdx
        (generate_taxon_name "_Alectoria sarmentosa ssp vexillifera").data
        = none ∧
    generate_taxon_name
        (generate_taxon_name "_Alectoria sarmentosa ssp vexillifera") =
      generate_taxon_name "_Alectoria sarmentosa ssp vexillifera" :=
  ⟨by decide, by decide, by decide, by decide,
   taxon_name_idem _ (by decide) (by decide) (by decide) (by decide)⟩

/-- C4 counterexample: on `"_ _ssp ssp"` normalization returns
`"_ssp. ssp"` — a leading underscore survives (strip-underscores runs only
once, before strip-whitespace) and the second bare `ssp` keeps no period
(the regex consumes the rest of the line after the first match) — not the
`"ssp. ssp."` the claim's description would produce. -/
theorem taxon_name_claim_false :
    generate_taxon_name "_ _ssp ssp" = "_ssp. ssp" ∧
      ("_ssp. ssp" : String) ≠ "ssp. ssp." :=
  ⟨by decide, by decide⟩

/-- C4 (amended): for every string input, `generate_taxon_name` returns the
input's leaf name with leading/trailing underscores stripped and then
leading/trailing whitespace stripped, after which a period is spliced in
right after the first `ssp`/`spp` occurrence not already followed by a
period; the match then copies the following whitespace and the rest of that
line unchanged, and the same rule is applied to the remainder — as stated
by the independent splice-based formulation `specNormalize`. -/
theorem taxon_name_spec (s : String) :
    generate_taxon_name s = specNormalize s := by
  show (⟨gtnL s.data⟩ : String) = specNormalize s
  unfold gtnL specNormalize
  rw [enfScan_spec (stripWs (stripUnd (pathName s.data))).length _ le_rfl]

/-- C5: whenever cleanup yields three or more word-parts with part 0 equal
to part 2, `generate_short_code` drops part 2 and returns the remaining
parts, each truncated to its first five characters, joined with
underscores. -/
theorem short_code_dup_genus (s : String) (p0 p1 p2 : List Char)
    (rest : List (List Char))
    (hp : cleanParts s.data = p0 :: p1 :: p2 :: rest) (he : p0 = p2) :
    generate_short_code s =
      ⟨joinU (((p0 :: p1 :: p2 :: rest).eraseIdx 2).map (List.take 5))⟩ := by
  unfold generate_short_code gscL
  rw [hp]
  simp [he]

/-- C5 witness: the duplicate-genus branch evaluated on
`"Calicium tigillare & Calicium pinicola"`. -/
theorem short_code_dup_genus_witness :
    cleanParts "Calicium tigillare & Calicium pinicola".data =
      "calicium".data :: "tigillare".data :: "calicium".data ::
        ["pinicola".data] ∧
    generate_short_code "Calicium tigillare & Calicium pinicola" =
      ⟨joinU ((("calicium".data :: "tigillare".data :: "calicium".data ::
        ["pinicola".data]).eraseIdx 2).map (List.take 5))⟩ :=
  ⟨by decide, short_code_dup_genus _ _ _ _ _ (by decide) (by decide)⟩

/-- C6: with exactly two cleaned word-parts, or three or more word-parts
whose part 0 differs from part 2, `generate_short_code` joins the parts'
first five characters with underscores; in particular
`"Parmelia pseudosulcata"` gives `"parme_pseud"` and
`"Acolium inquinans & Pseudothelomma occidentale"` gives
`"acoli_inqui_pseud_occid"`. -/
theorem short_code_truncate_join :
    (∀ (s : String) (p q : List Char), cleanParts s.data = [p, q] →
        generate_short_code s = ⟨joinU [p.take 5, q.take 5]⟩) ∧
    (∀ (s : String) (p0 p1 p2 : List Char) (rest : List (List Char)),
        cleanParts s.data = p0 :: p1 :: p2 :: rest → p0 ≠ p2 →
        generate_short_code s =
          ⟨joinU ((p0 :: p1 :: p2 :: rest).map (List.take 5))⟩) ∧
    generate_short_code "Parmelia pseudosulcata" = "parme_pseud" ∧
    generate_short_code "Acolium inquinans & Pseudothelomma occidentale" =
      "acoli_inqui_pseud_occid" := by
  refine ⟨?_, ?_, by decide, by decide⟩
  · intro s p q hp
    unfold generate_short_code gscL
    rw [hp]
  · intro s p0 p1 p2 rest hp he
    unfold generate_short_code gscL
    rw [hp]
    simp [he]

/-- C6 witness: both universally quantified branches of the claim evaluated
at the concrete inputs named by the claim. -/
theorem short_code_truncate_join_witness :
    generate_short_code "Parmelia pseudosulcata" =
      ⟨joinU ["parmelia".data.take 5, "pseudosulcata".data.take 5]⟩ ∧
    generate_short_code "Acolium inquinans & Pseudothelomma occidentale" =
      ⟨joinU (("acolium".data :: "inquinans".data :: "pseudothelomma".data ::
        ["occidentale".data]).map (List.take 5))⟩ :=
  ⟨short_code_truncate_join.1 _ _ _ (by decide),
   short_code_truncate_join.2.1 _ _ _ _ _ (by decide) (by decide)⟩

/-- C7: whenever cleanup leaves zero word-parts, `generate_short_code`
returns the sentinel `"Error"`. -/
theorem short_code_error_sentinel (s : String)
    (h : cleanParts s.data = []) : generate_short_code s = "Error" := by
  unfold generate_short_code gscL
  rw [h]

/-- C7 witness: the empty string cleans up to zero word-parts and yields the
sentinel. -/
theorem short_code_error_sentinel_witness :
    cleanParts "".data = [] ∧ generate_short_code "" = "Error" :=
  ⟨by decide, short_code_error_sentinel "" (by decide)⟩

/-- C8 counterexample: the folder-slug derivation does not restrict its
output alphabet for arbitrary grouping labels — the label `","` passes
through every rewrite unchanged and yields the slug `","`, whose character
is outside `[a-z0-9_]`. -/
theorem taxon_folder_slug_claim_false :
    taxon_folder "," = "," ∧ ',' ∈ (taxon_folder ",").data ∧
      isSlugChar ',' = false :=
  ⟨by decide, by decide, by decide⟩

/-- C8 (amended): the derived folder slug never contains two consecutive
underscores, for every input; and it contains only characters in
`[a-z0-9_]` for every grouping label made of ASCII letters, digits,
whitespace and the characters `& . - _` (the classes the pipeline rewrites
or removes, which cover the labels produced by the upstream title
mappings). -/
theorem taxon_folder_slug :
    (∀ t : String, noDoubleU (taxon_folder t).data = true) ∧
    (∀ t : String, (∀ c ∈ t.data, asciiTextOk c = true) →
        ∀ c ∈ (taxon_folder t).data, isSlugChar c = true) := by
  constructor
  · intro t
    exact noDU_collapseU
  · intro t hok c hc
    exact taxonFolderL_slug hok c hc

/-- C8 witness: both slug invariants evaluated on the verbose mushroom
group label. -/
theorem taxon_folder_slug_witness :
    noDoubleU
        (taxon_folder "Mushroom-Forming Lichens & Basidiolichens").data
        = true ∧
    ∀ c ∈ (taxon_folder "Mushroom-Forming Lichens & Basidiolichens").data,
      isSlugChar c = true :=
  ⟨taxon_folder_slug.1 "Mushroom-Forming Lichens & Basidiolichens",
   taxon_folder_slug.2 "Mushroom-Forming Lichens & Basidiolichens"
     (by decide)⟩

/-- C10: short-code generation is invariant under abbreviation-period
normalization: for every string, the short code of
`enforce_abbr_period x` equals the short code of `x` — every period the
regex inserts is removed again by the short-code cleanup, and the insertion
never changes which characters or `ssp`/`spp` substrings that cleanup
removes. -/
theorem short_code_enforce_invariant (x : String) :
    generate_short_code (enforce_abbr_period x) = generate_short_code x := by
  have h : cleanParts (enfRun .scan x.data) = cleanParts x.data := by
    unfold cleanParts
    rw [rj_enf x.data.length .scan x.data le_rfl]
  show (⟨gscL (enfRun .scan x.data)⟩ : String) = ⟨gscL x.data⟩
  unfold gscL
  rw [h]

/-- C9: the order column assigns the i-th enumerated distinct
(title, folder) row the display-order integer `10 + i`, and every assigned
order is at least 10, so orders 0 through 9 are never used. -/
theorem assign_order_enumeration :
    (∀ (rows : List (String × String)) (i : Nat),
        (assignOrder (distinctPairs rows))[i]? =
          ((distinctPairs rows)[i]?).map (fun r => (r, 10 + i))) ∧
    (∀ (rows : List (String × String)) (e : (String × String) × Nat),
        e ∈ assignOrder (distinctPairs rows) → 10 ≤ e.2) := by
  constructor
  · intro rows i
    unfold assignOrder
    simp only [List.getElem?_map, List.getElem?_enum, Option.map_map]
    cases (distinctPairs rows)[i]? <;> rfl
  · intro rows e he
    unfold assignOrder at he
    obtain ⟨⟨i, r⟩, _, rfl⟩ := List.mem_map.mp he
    exact Nat.le_add_right 10 i

/-- C9 witness: the order assignment evaluated on a one-row table. -/
theorem assign_order_enumeration_witness :
    (assignOrder (distinctPairs [("a", "b")]))[0]? =
      some ((("a", "b"), 10)) ∧ 10 ≤ ((("a", "b"), 10)).2 :=
  ⟨by have h := assign_order_enumeration.1 [("a", "b")] 0; simpa using h,
   assign_order_enumeration.2 [("a", "b")] (("a", "b"), 10) (by decide)⟩
